import Mathlib

/-!
Verification of the ordered multi-valued map of JoachimCoenen/cat-gui
(src/utils/collections_/orderedmultidictBase.pyx plus the C++ hash functors
of pyObjectPtrHash.h).

The embedding is shallow: the two internal stores of the map are modelled as
association lists with exactly the access semantics of the Python/C++
containers they stand for, and every public operation is translated
statement by statement from the source.  Operations that can raise a Python
exception return the (possibly partially mutated, exactly as in the source)
state together with an `Except` outcome.
-/

/-- A Python key object.  `ident` models physical identity (the result of
Python id, distinct per object), `eqc` models the user-definable equality
(two keys are Python-equal iff their `eqc` agree) and `hsh` models the
result of PyObject_Hash. -/
structure PyKey where
  ident : Nat
  eqc : Nat
  hsh : Int
deriving DecidableEq, Repr

/-- Python exceptions raised by the map, plus a marker for branches that are
C++ undefined behavior (front/pop on an empty deque); the UB branches are
never reached from sanely-indexed states. -/
inductive PyErr where
  | keyError
  | runtimeError
  | ub
deriving DecidableEq, Repr

/-- Decidable equality of exception-or-result outcomes. -/
instance {ε α : Type} [DecidableEq ε] [DecidableEq α] : DecidableEq (Except ε α) := by
  intro a b
  cases a <;> cases b
  case error.error e f =>
    exact decidable_of_iff (e = f) ⟨by rintro rfl; rfl, fun h => by injection h⟩
  case error.ok e x => exact .isFalse (fun h => by injection h)
  case ok.error x e => exact .isFalse (fun h => by injection h)
  case ok.ok x y =>
    exact decidable_of_iff (x = y) ⟨by rintro rfl; rfl, fun h => by injection h⟩

/-- Lookup in an association list: the value of the first entry with the
given key.  Models both OrderedDict subscript reads and unordered_map find. -/
def alistFind? [DecidableEq κ] : List (κ × α) → κ → Option α
  | [], _ => none
  | (j, b) :: rest, i => if j = i then some b else alistFind? rest i

/-- Write through an association list: replace the first entry with the key
in place, or append a fresh entry at the end.  Models OrderedDict item
assignment (existing keys keep their position, new keys go last) and
unordered_map bracket assignment. -/
def alistSet [DecidableEq κ] : List (κ × α) → κ → α → List (κ × α)
  | [], i, a => [(i, a)]
  | (j, b) :: rest, i, a => if j = i then (i, a) :: rest else (j, b) :: alistSet rest i a

/-- Deletion from an OrderedDict: remove the entry with the key, or fail
(Python del raises KeyError) when the key is absent. -/
def alistDel? [DecidableEq κ] : List (κ × α) → κ → Option (List (κ × α))
  | [], _ => none
  | (j, b) :: rest, i =>
    if j = i then some rest else (alistDel? rest i).map (fun r => (j, b) :: r)

/-- unordered_map erase: drop the entry with the key when present,
otherwise leave the list unchanged. -/
def alistErase [DecidableEq κ] : List (κ × α) → κ → List (κ × α)
  | [], _ => []
  | (j, b) :: rest, i => if j = i then rest else (j, b) :: alistErase rest i

/-- Stable insertion into an ascending-by-le list: the new element goes in
front of the first element it is le-related to. -/
def insertSorted (le : β → β → Bool) (a : β) : List β → List β
  | [] => [a]
  | b :: bs => if le a b then a :: b :: bs else b :: insertSorted le a bs

/-- Stable insertion sort; extensionally equal to any stable comparison
sort, in particular to the one of CPython sorted. -/
def isort (le : β → β → Bool) : List β → List β
  | [] => []
  | a :: as => insertSorted le a (isort le as)

/-- Models Python sorted(xs, key := f, reverse := rev): a stable sort,
ascending by f, or descending by f with ties kept in original order when
rev is set. -/
def pySorted (f : β → Int) (rev : Bool) (l : List β) : List β :=
  isort (fun a b => if rev then decide (f b ≤ f a) else decide (f a ≤ f b)) l

/-- The state of OrderedMultiDictBase.

`_items` is the item ledger: the Python OrderedDict from slot id to
(key, value), held in insertion order.

`_map` is the key index: the C++ unordered_map from key to the deque of
(slot id, value) pairs.  Its hash functor is PyObject_Hash and its equality
functor compares only the two hash values (pyObjectPtrHash.h), so the
container dispatches on the `hsh` field of a key alone; it is therefore
modelled as an association list keyed by the hash value.

`_index` is the monotonically increasing slot counter. -/
structure OrderedMultiDictBase (V : Type) where
  _items : List (Nat × (PyKey × V))
  _map : List (Int × List (Nat × V))
  _index : Nat
deriving DecidableEq, Repr

namespace OrderedMultiDictBase

variable {V : Type}

/-- A freshly constructed, empty map. -/
def empty : OrderedMultiDictBase V := ⟨[], [], 0⟩

/-- clear: empties both stores and resets the slot counter. -/
def clear (_S : OrderedMultiDictBase V) : OrderedMultiDictBase V := ⟨[], [], 0⟩

/-- getAllOrNull: find the deque of the key in the key index (dispatching on
the hash value only), or null.  The assertion of the source, that a found
deque is never empty, is not assumed here: broken states with empty deques
are representable. -/
def getAllOrNull (S : OrderedMultiDictBase V) (k : PyKey) : Option (List (Nat × V)) :=
  alistFind? S._map k.hsh

/-- The membership test of the map and of its key views: a raw find in the
key index. -/
def contains (S : OrderedMultiDictBase V) (k : PyKey) : Bool :=
  (getAllOrNull S k).isSome

/-- get / getFirst: the front value of the deque of the key, else the
default (Python None is the `none` of the option).  Taking front of an
empty deque is C++ UB; that branch, unreachable from sanely-indexed states,
is modelled as returning the default. -/
def get (S : OrderedMultiDictBase V) (k : PyKey) (default : Option V) : Option V :=
  match getAllOrNull S k with
  | some bucket =>
    match bucket.head? with
    | some sv => some sv.2
    | none => default
  | none => default

/-- getLast: the back value of the deque of the key, else the default.  The
empty-deque branch is C++ UB, modelled like in get. -/
def getLast (S : OrderedMultiDictBase V) (k : PyKey) (default : Option V) : Option V :=
  match getAllOrNull S k with
  | some bucket =>
    match bucket.getLast? with
    | some sv => some sv.2
    | none => default
  | none => default

/-- getall: the list of values of the key, oldest first; `default`
(`none` models the absent-argument sentinel, giving the empty list) when
the key is not present. -/
def getall (S : OrderedMultiDictBase V) (k : PyKey) (default : Option (List V)) : List V :=
  match getAllOrNull S k with
  | some bucket => bucket.map (·.2)
  | none =>
    match default with
    | some d => d
    | none => []

/-- add: record a fresh slot id, canonicalize the key object to the one
stored at the front slot of an existing deque (so that the first-seen key
object is kept alive), append to the ledger and push onto the deque.
When the front slot of the deque is missing from the ledger (a desynced
state) the ledger read raises KeyError with the slot counter already
incremented, exactly as in the source. -/
def add (S : OrderedMultiDictBase V) (k : PyKey) (v : V) :
    OrderedMultiDictBase V × Except PyErr Unit :=
  let i := S._index
  let S1 : OrderedMultiDictBase V := { S with _index := S._index + 1 }
  match alistFind? S1._map k.hsh with
  | none =>
    ({ S1 with
        _items := alistSet S1._items i (k, v)
        _map := alistSet S1._map k.hsh [(i, v)] }, .ok ())
  | some [] =>
    -- an existing but empty deque: values.empty() holds, so the passed key
    -- object is kept, as in the source
    ({ S1 with
        _items := alistSet S1._items i (k, v)
        _map := alistSet S1._map k.hsh [(i, v)] }, .ok ())
  | some ((slot, w) :: bs) =>
    match alistFind? S1._items slot with
    | none => (S1, .error .keyError)
    | some e =>
      ({ S1 with
          _items := alistSet S1._items i (e.1, v)
          _map := alistSet S1._map k.hsh (((slot, w) :: bs) ++ [(i, v)]) }, .ok ())

/-- addAll: sequential adds of each value of the list under the key,
aborting on the first exception. -/
def addAll (S : OrderedMultiDictBase V) (k : PyKey) :
    List V → OrderedMultiDictBase V × Except PyErr Unit
  | [] => (S, .ok ())
  | v :: vs =>
    match add S k v with
    | (S', .ok _) => addAll S' k vs
    | (S', .error e) => (S', .error e)

/-- extend: sequential adds of each (key, value) pair of the list. -/
def extend (S : OrderedMultiDictBase V) :
    List (PyKey × V) → OrderedMultiDictBase V × Except PyErr Unit
  | [] => (S, .ok ())
  | p :: ps =>
    match add S p.1 p.2 with
    | (S', .ok _) => extend S' ps
    | (S', .error e) => (S', .error e)

/-- load: clear, then import every (key, value) pair in order through add. -/
def load (S : OrderedMultiDictBase V) (ps : List (PyKey × V)) :
    OrderedMultiDictBase V × Except PyErr Unit :=
  extend (clear S) ps

/-- setdefault: the front value when the key is present, else add the
default under the key and return it.  The present branch with an empty
deque is the C++ UB front again, modelled by returning the default. -/
def setdefault (S : OrderedMultiDictBase V) (k : PyKey) (default : V) :
    OrderedMultiDictBase V × Except PyErr V :=
  match getAllOrNull S k with
  | some bucket =>
    match bucket.head? with
    | some sv => (S, .ok sv.2)
    | none => (S, .error .ub)
  | none =>
    match add S k default with
    | (S', .ok _) => (S', .ok default)
    | (S', .error e) => (S', .error e)

/-- setdefaultAll: existing value list when the key is present, else add
every value of the default list (no mutation at all when it is empty) and
return the default list. -/
def setdefaultAll (S : OrderedMultiDictBase V) (k : PyKey) (defaultlist : List V) :
    OrderedMultiDictBase V × Except PyErr (List V) :=
  match getAllOrNull S k with
  | some _ => (S, .ok (getall S k none))
  | none =>
    match addAll S k defaultlist with
    | (S', .ok _) => (S', .ok defaultlist)
    | (S', .error e) => (S', .error e)

/-- Deletion loop shared by _tryDeleteAll and popAll: del the ledger entry
of each listed slot in order; a missing slot raises KeyError with the
already performed deletions kept, exactly as in the source loops. -/
def delSlots : List Nat → List (Nat × (PyKey × V)) → List (Nat × (PyKey × V)) × Bool
  | [], its => (its, true)
  | s :: rest, its =>
    match alistDel? its s with
    | some its' => delSlots rest its'
    | none => (its, false)

/-- _tryDeleteAll: when the key is in the index, del every ledger slot of
its deque and erase the key, answering whether the key was present.  A
stale slot id raises KeyError; the key is then not erased. -/
def tryDeleteAll (S : OrderedMultiDictBase V) (k : PyKey) :
    OrderedMultiDictBase V × Except PyErr Bool :=
  match getAllOrNull S k with
  | some bucket =>
    match delSlots (bucket.map (·.1)) S._items with
    | (its, true) =>
      ({ S with _items := its, _map := alistErase S._map k.hsh }, .ok true)
    | (its, false) => ({ S with _items := its }, .error .keyError)
  | none => (S, .ok false)

/-- deleteAll: _tryDeleteAll, raising KeyError when the key was absent. -/
def deleteAll (S : OrderedMultiDictBase V) (k : PyKey) :
    OrderedMultiDictBase V × Except PyErr Unit :=
  match tryDeleteAll S k with
  | (S', .ok true) => (S', .ok ())
  | (S', .ok false) => (S', .error .keyError)
  | (S', .error e) => (S', .error e)

/-- setAll: _tryDeleteAll (tolerating absence), then addAll. -/
def setAll (S : OrderedMultiDictBase V) (k : PyKey) (vs : List V) :
    OrderedMultiDictBase V × Except PyErr Unit :=
  match tryDeleteAll S k with
  | (S', .ok _) => addAll S' k vs
  | (S', .error e) => (S', .error e)

/-- popAll: when the key is in the index, collect its values oldest first
while deleting each ledger slot, then erase the key.  When absent, a
non-None default (`some`) is returned; the None default (`none`, which is
also the value of the omitted argument) raises KeyError. -/
def popAll (S : OrderedMultiDictBase V) (k : PyKey) (default : Option (List V)) :
    OrderedMultiDictBase V × Except PyErr (List V) :=
  match getAllOrNull S k with
  | some bucket =>
    match delSlots (bucket.map (·.1)) S._items with
    | (its, true) =>
      ({ S with _items := its, _map := alistErase S._map k.hsh },
        .ok (bucket.map (·.2)))
    | (its, false) => ({ S with _items := its }, .error .keyError)
  | none =>
    match default with
    | some d => (S, .ok d)
    | none => (S, .error .keyError)

/-- popFirst: pop the front of the deque of the key, del its ledger slot
and purge the key when its deque became empty; default (`none` models the
absent-argument sentinel) or KeyError when the key is absent.  A stale slot
id raises KeyError after the deque was already popped and before the purge,
exactly as in the source.  Popping the front of an existing empty deque is
C++ UB. -/
def popFirst (S : OrderedMultiDictBase V) (k : PyKey) (default : Option V) :
    OrderedMultiDictBase V × Except PyErr V :=
  match getAllOrNull S k with
  | some [] => (S, .error .ub)
  | some ((slot, v) :: rest) =>
    let S1 : OrderedMultiDictBase V := { S with _map := alistSet S._map k.hsh rest }
    match alistDel? S1._items slot with
    | some its =>
      if rest.isEmpty then
        ({ S1 with _items := its, _map := alistErase S1._map k.hsh }, .ok v)
      else
        ({ S1 with _items := its }, .ok v)
    | none => (S1, .error .keyError)
  | none =>
    match default with
    | some d => (S, .ok d)
    | none => (S, .error .keyError)

/-- popLast: like popFirst at the back of the deque. -/
def popLast (S : OrderedMultiDictBase V) (k : PyKey) (default : Option V) :
    OrderedMultiDictBase V × Except PyErr V :=
  match getAllOrNull S k with
  | some bucket =>
    match bucket.getLast? with
    | none => (S, .error .ub)
    | some (slot, v) =>
      let rest := bucket.dropLast
      let S1 : OrderedMultiDictBase V := { S with _map := alistSet S._map k.hsh rest }
      match alistDel? S1._items slot with
      | some its =>
        if rest.isEmpty then
          ({ S1 with _items := its, _map := alistErase S1._map k.hsh }, .ok v)
        else
          ({ S1 with _items := its }, .ok v)
      | none => (S1, .error .keyError)
  | none =>
    match default with
    | some d => (S, .ok d)
    | none => (S, .error .keyError)

/-- pop: alias for popLast. -/
def pop (S : OrderedMultiDictBase V) (k : PyKey) (default : Option V) :
    OrderedMultiDictBase V × Except PyErr V :=
  popLast S k default

/-- popFirstItem: popitem the oldest ledger entry (default or KeyError when
the map is empty), then shrink the deque of its key, purging the key when
it became empty.  A key missing from the index leaves the already popped
ledger and raises the Bad State RuntimeError, as in the source; popping an
existing empty deque is C++ UB. -/
def popFirstItem (S : OrderedMultiDictBase V) (default : Option (PyKey × V)) :
    OrderedMultiDictBase V × Except PyErr (PyKey × V) :=
  match S._items with
  | [] =>
    match default with
    | some d => (S, .ok d)
    | none => (S, .error .keyError)
  | (_, item) :: rest =>
    let S1 : OrderedMultiDictBase V := { S with _items := rest }
    match alistFind? S1._map item.1.hsh with
    | none => (S1, .error .runtimeError)
    | some [] => (S1, .error .ub)
    | some (_ :: bs) =>
      let m1 := alistSet S1._map item.1.hsh bs
      if bs.isEmpty then
        ({ S1 with _map := alistErase m1 item.1.hsh }, .ok item)
      else
        ({ S1 with _map := m1 }, .ok item)

/-- popLastItem: like popFirstItem with the newest ledger entry and the
back of the deque. -/
def popLastItem (S : OrderedMultiDictBase V) (default : Option (PyKey × V)) :
    OrderedMultiDictBase V × Except PyErr (PyKey × V) :=
  match S._items.getLast? with
  | none =>
    match default with
    | some d => (S, .ok d)
    | none => (S, .error .keyError)
  | some (_, item) =>
    let S1 : OrderedMultiDictBase V := { S with _items := S._items.dropLast }
    match alistFind? S1._map item.1.hsh with
    | none => (S1, .error .runtimeError)
    | some [] => (S1, .error .ub)
    | some bucket =>
      let bs := bucket.dropLast
      let m1 := alistSet S1._map item.1.hsh bs
      if bs.isEmpty then
        ({ S1 with _map := alistErase m1 item.1.hsh }, .ok item)
      else
        ({ S1 with _map := m1 }, .ok item)

/-- sort: replace the ledger by the enumeration (fresh dense slot ids
0..n-1) of the stable sort of its (key, value) pairs under the
caller-supplied key function and direction.  The key index and the slot
counter are NOT touched by the source. -/
def sort (S : OrderedMultiDictBase V) (f : PyKey × V → Int) (reverse : Bool) :
    OrderedMultiDictBase V :=
  { S with _items := List.enum (pySorted f reverse (S._items.map (·.2))) }

/-- The items view as a list: the (key, value) pairs of the ledger in slot
order. -/
def items (S : OrderedMultiDictBase V) : List (PyKey × V) :=
  S._items.map (·.2)

/-- The keys view as a list: one key token per ledger entry. -/
def keys (S : OrderedMultiDictBase V) : List PyKey :=
  (items S).map (·.1)

/-- The values view as a list. -/
def values (S : OrderedMultiDictBase V) : List V :=
  (items S).map (·.2)

/-- Membership in a CPython set of keys: hash lookup, then identity or
user equality. -/
def pySetMem (seen : List PyKey) (k : PyKey) : Bool :=
  seen.any (fun s => s.hsh == k.hsh && (s.ident == k.ident || s.eqc == k.eqc))

/-- The generator shared by the two directions of the unique-keys view:
yield each key not yet in the seen set, adding it to the set. -/
def uniqAux : List PyKey → List PyKey → List PyKey
  | _, [] => []
  | seen, k :: ks =>
    if pySetMem seen k then uniqAux seen ks else k :: uniqAux (k :: seen) ks

/-- The forward iteration of the unique-keys view. -/
def uniqueKeys (S : OrderedMultiDictBase V) : List PyKey :=
  uniqAux [] (keys S)

/-- The reversed iteration of the unique-keys view: the same seen-set
generator over the reversed ledger. -/
def uniqueKeysReversed (S : OrderedMultiDictBase V) : List PyKey :=
  uniqAux [] (keys S).reverse

/-- Python equality of two ledger pairs: keys by user equality, values by
value equality. -/
def itemEqB [DecidableEq V] (a b : PyKey × V) : Bool :=
  a.1.eqc == b.1.eqc && a.2 == b.2

/-- The zip_longest comparison of the source __eq__: false on the first
unequal pair or length mismatch. -/
def itemsEqB [DecidableEq V] : List (PyKey × V) → List (PyKey × V) → Bool
  | [], [] => true
  | a :: as, b :: bs => itemEqB a b && itemsEqB as bs
  | _, _ => false

/-- __eq__: two maps are equal iff their item sequences agree pairwise in
order and length. -/
def omdEq [DecidableEq V] (A B : OrderedMultiDictBase V) : Bool :=
  itemsEqB (items A) (items B)

/-- __setitem__: replace all values of the key by the single given value. -/
def setitem (S : OrderedMultiDictBase V) (k : PyKey) (v : V) :
    OrderedMultiDictBase V × Except PyErr Unit :=
  setAll S k [v]

/-- __delitem__: pop, i.e. popLast, with no default. -/
def delitem (S : OrderedMultiDictBase V) (k : PyKey) :
    OrderedMultiDictBase V × Except PyErr V :=
  pop S k none

/-- The dual-index well-formedness invariant of the spec: slot ids below
the counter and unique, index hash entries unique, deques non-empty with
unique slot ids, every deque entry backed by a ledger entry of the same
slot, value and key hash, and every ledger entry listed in the deque of the
hash of its key. -/
def WF (S : OrderedMultiDictBase V) : Prop :=
  (∀ e ∈ S._items, e.1 < S._index) ∧
  (S._items.map (·.1)).Nodup ∧
  (S._map.map (·.1)).Nodup ∧
  (∀ b ∈ S._map, b.2 ≠ []) ∧
  (∀ b ∈ S._map, (b.2.map (·.1)).Nodup) ∧
  (∀ b ∈ S._map, ∀ sv ∈ b.2, ∃ e ∈ S._items, e.1 = sv.1 ∧ e.2.2 = sv.2 ∧ e.2.1.hsh = b.1) ∧
  (∀ e ∈ S._items, ∃ b ∈ S._map, b.1 = e.2.1.hsh ∧ (e.1, e.2.2) ∈ b.2)

instance [DecidableEq V] (S : OrderedMultiDictBase V) : Decidable (WF S) := by
  unfold WF
  infer_instance

end OrderedMultiDictBase

open OrderedMultiDictBase

/-- A well-behaved concrete key object: object number n with identity n,
equality class n and hash n. -/
def K (n : Nat) : PyKey := ⟨n, n, n⟩

/-- A key object with hash 5, used in the desync traces. -/
def kA : PyKey := ⟨0, 0, 5⟩

/-- A key object with hash 7, unrelated to kA. -/
def kX : PyKey := ⟨1, 1, 7⟩

/-- A key object distinct from kA under Python equality but sharing the
hash 5. -/
def kB : PyKey := ⟨2, 2, 5⟩

/-- Claim C1: every public mutation, sort included, is claimed to preserve
the dual-index invariant on all states reachable from the empty map.  The
code violates this: sort renumbers the ledger slots densely but leaves the
key index holding the old slot ids.  Loading two items and sorting in
reverse produces a reachable state where the key index records slot 0 for
the key with hash 1, while ledger slot 0 now holds the key with hash 2 and
a different value. -/
theorem C1_sort_breaks_dual_index_invariant :
    load (empty : OrderedMultiDictBase Int) [(K 1, 10), (K 2, 20)] =
      (⟨[(0, (K 1, 10)), (1, (K 2, 20))], [(1, [(0, 10)]), (2, [(1, 20)])], 2⟩, .ok ()) ∧
    WF (⟨[(0, (K 1, 10)), (1, (K 2, 20))],
        [(1, [(0, 10)]), (2, [(1, 20)])], 2⟩ : OrderedMultiDictBase Int) ∧
    sort (⟨[(0, (K 1, 10)), (1, (K 2, 20))],
        [(1, [(0, 10)]), (2, [(1, 20)])], 2⟩ : OrderedMultiDictBase Int) (fun p => p.2) true =
      ⟨[(0, (K 2, 20)), (1, (K 1, 10))], [(1, [(0, 10)]), (2, [(1, 20)])], 2⟩ ∧
    ¬ WF (⟨[(0, (K 2, 20)), (1, (K 1, 10))],
        [(1, [(0, 10)]), (2, [(1, 20)])], 2⟩ : OrderedMultiDictBase Int) := by
  decide

/-- Claim C2: sort on the map holding (1, b), (2, a), (3, a) with the value
as sort key is claimed to reorder the ledger stably to (2, a), (3, a),
(1, b) with slot ids 0, 1, 2 and a key index rebuilt to match.  The ledger
part holds (values a and b are rendered as 0 and 1), but the code never
rebuilds the key index: it still holds the pre-sort slot assignments, and
the dual-index consistency fails on the sorted state. -/
theorem C2_sort_reorders_ledger_but_not_key_index :
    load (empty : OrderedMultiDictBase Int) [(K 1, 1), (K 2, 0), (K 3, 0)] =
      (⟨[(0, (K 1, 1)), (1, (K 2, 0)), (2, (K 3, 0))],
        [(1, [(0, 1)]), (2, [(1, 0)]), (3, [(2, 0)])], 3⟩, .ok ()) ∧
    sort (⟨[(0, (K 1, 1)), (1, (K 2, 0)), (2, (K 3, 0))],
        [(1, [(0, 1)]), (2, [(1, 0)]), (3, [(2, 0)])], 3⟩ : OrderedMultiDictBase Int)
        (fun p => p.2) false =
      ⟨[(0, (K 2, 0)), (1, (K 3, 0)), (2, (K 1, 1))],
        [(1, [(0, 1)]), (2, [(1, 0)]), (3, [(2, 0)])], 3⟩ ∧
    items (⟨[(0, (K 2, 0)), (1, (K 3, 0)), (2, (K 1, 1))],
        [(1, [(0, 1)]), (2, [(1, 0)]), (3, [(2, 0)])], 3⟩ : OrderedMultiDictBase Int) =
      [(K 2, 0), (K 3, 0), (K 1, 1)] ∧
    (⟨[(0, (K 2, 0)), (1, (K 3, 0)), (2, (K 1, 1))],
        [(1, [(0, 1)]), (2, [(1, 0)]), (3, [(2, 0)])],
        3⟩ : OrderedMultiDictBase Int)._items.map (·.1) = [0, 1, 2] ∧
    ¬ WF (⟨[(0, (K 2, 0)), (1, (K 3, 0)), (2, (K 1, 1))],
        [(1, [(0, 1)]), (2, [(1, 0)]), (3, [(2, 0)])], 3⟩ : OrderedMultiDictBase Int) := by
  decide

/-- Claim C5: the claim states that in every reachable state a key present
in the key index has a non-empty value sequence.  The code violates this:
after add, add, popFirst, sort, a further popFirst pops the front of the
deque of the key, then raises KeyError on the stale ledger slot before the
purge step, leaving a reachable state whose key index still contains the
key with an EMPTY value sequence (so the key still tests as a member while
holding no values, and the non-empty assertion of getAllOrNull is
violated on the next access). -/
theorem C5_failed_pop_after_sort_leaves_present_key_with_empty_values :
    popFirst
      (sort (popFirst (add (add (empty : OrderedMultiDictBase Int) kX 0).1 kA 1).1 kX none).1
        (fun p => p.2) false)
      kA none =
      (⟨[(0, (kA, 1))], [(5, [])], 2⟩, .error .keyError) ∧
    contains (⟨[(0, (kA, 1))], [(5, [])], 2⟩ : OrderedMultiDictBase Int) kA = true ∧
    getAllOrNull (⟨[(0, (kA, 1))], [(5, [])], 2⟩ : OrderedMultiDictBase Int) kA = some [] := by
  decide

/-- Claim C3 counterexample: the claim states that popAll on an absent key
with ANY supplied default returns that default.  Python None is the `none`
of the option and is also the declared default of the parameter, so the
call popAll(k, None) supplies a default, yet the source raises KeyError
because it tests the default against None rather than against a dedicated
sentinel. -/
theorem C3_popAll_counterexample_supplied_none_default :
    popAll (empty : OrderedMultiDictBase Int) (K 1) none =
      (empty, .error .keyError) := by
  decide

/-- Claim C7 counterexample: the round-trip law fails on a map built by a
sequence of public operations.  The trace add, add, popFirst, sort,
popFirst (raising on a stale ledger slot and stranding an empty deque for
hash 5), add with a hash-colliding but unequal key kB, yields a ledger
holding the two distinct key objects kA and kB with equal hash.  Replaying
these items through load canonicalizes kB to the first-seen kA, so the
reloaded map differs from the original at the second item under the
positional equality of the map itself. -/
theorem C7_roundtrip_counterexample :
    (add
      (popFirst
        (sort (popFirst (add (add (empty : OrderedMultiDictBase Int) kX 0).1 kA 1).1 kX none).1
          (fun p => p.2) false)
        kA none).1
      kB 2).1 =
      ⟨[(0, (kA, 1)), (2, (kB, 2))], [(5, [(2, 2)])], 3⟩ ∧
    items (⟨[(0, (kA, 1)), (2, (kB, 2))], [(5, [(2, 2)])], 3⟩ : OrderedMultiDictBase Int) =
      [(kA, 1), (kB, 2)] ∧
    omdEq
      (load (empty : OrderedMultiDictBase Int) [(kA, 1), (kB, 2)]).1
      (⟨[(0, (kA, 1)), (2, (kB, 2))], [(5, [(2, 2)])], 3⟩ : OrderedMultiDictBase Int) = false := by
  decide

/-- Claim C8: setdefaultAll with the empty default list on an absent key
returns the empty list and leaves the whole state, slot counter included,
unchanged. -/
theorem C8_setdefaultAll_empty_list_is_noop :
    ∀ {V : Type} (S : OrderedMultiDictBase V) (k : PyKey),
      contains S k = false →
      setdefaultAll S k [] = (S, .ok []) := by
  intro V S k h
  cases hfind : alistFind? S._map k.hsh with
  | none => simp [setdefaultAll, getAllOrNull, hfind, addAll]
  | some b =>
    rw [contains, getAllOrNull, hfind] at h
    simp at h

/-- Witness for C8 at a concrete absent key on the empty map. -/
theorem C8_setdefaultAll_empty_list_is_noop_witness :
    contains (empty : OrderedMultiDictBase Int) (K 1) = false ∧
    setdefaultAll (empty : OrderedMultiDictBase Int) (K 1) [] = (empty, .ok []) :=
  ⟨by decide, C8_setdefaultAll_empty_list_is_noop empty (K 1) (by decide)⟩

/-- Claim C9: the key index identifies keys solely by hash equality, since
the equality functor of the C++ unordered_map compares PyObject_Hash
results only.  After adding k1 to an empty map, any k2 with the same hash
but different Python equality tests as a member and get returns the value
stored under k1. -/
theorem C9_key_index_compares_hashes_only :
    ∀ {V : Type} (v : V) (k1 k2 : PyKey) (d : Option V),
      k1.hsh = k2.hsh → k1.eqc ≠ k2.eqc →
      (add (empty : OrderedMultiDictBase V) k1 v).2 = .ok () ∧
      contains (add (empty : OrderedMultiDictBase V) k1 v).1 k2 = true ∧
      get (add (empty : OrderedMultiDictBase V) k1 v).1 k2 d = some v := by
  intro V v k1 k2 d hh _
  refine ⟨rfl, ?_, ?_⟩ <;>
    simp [add, empty, alistFind?, alistSet, contains, getAllOrNull,
      OrderedMultiDictBase.get, hh]

/-- Witness for C9 with two concrete key objects sharing hash 42. -/
theorem C9_key_index_compares_hashes_only_witness :
    (⟨0, 0, 42⟩ : PyKey).hsh = (⟨1, 1, 42⟩ : PyKey).hsh ∧
    contains (add (empty : OrderedMultiDictBase Int) ⟨0, 0, 42⟩ 7).1 ⟨1, 1, 42⟩ = true ∧
    get (add (empty : OrderedMultiDictBase Int) ⟨0, 0, 42⟩ 7).1 ⟨1, 1, 42⟩ none = some 7 :=
  ⟨rfl,
    (C9_key_index_compares_hashes_only 7 ⟨0, 0, 42⟩ ⟨1, 1, 42⟩ none rfl (by decide)).2.1,
    (C9_key_index_compares_hashes_only 7 ⟨0, 0, 42⟩ ⟨1, 1, 42⟩ none rfl (by decide)).2.2⟩

/-- Writing a fresh key into an association list appends it at the end. -/
theorem alistSet_append_of_forall_ne {κ α : Type} [DecidableEq κ]
    (l : List (κ × α)) (i : κ) (a : α) (h : ∀ e ∈ l, e.1 ≠ i) :
    alistSet l i a = l ++ [(i, a)] := by
  induction l with
  | nil => rfl
  | cons e rest ih =>
    obtain ⟨j, b⟩ := e
    have h1 : j ≠ i := h (j, b) (by simp)
    simp [alistSet, h1, ih (fun e he => h e (by simp [he]))]

/-- Lookup of a key just written finds the written value. -/
theorem alistFind?_set_self {κ α : Type} [DecidableEq κ]
    (l : List (κ × α)) (i : κ) (a : α) :
    alistFind? (alistSet l i a) i = some a := by
  induction l with
  | nil => simp [alistSet, alistFind?]
  | cons e rest ih =>
    obtain ⟨j, b⟩ := e
    by_cases h : j = i
    · subst h; simp [alistSet, alistFind?]
    · simp [alistSet, alistFind?, h, ih]

/-- Lookup skips a prefix free of the key. -/
theorem alistFind?_append_right {κ α : Type} [DecidableEq κ]
    (l l' : List (κ × α)) (i : κ) (h : ∀ e ∈ l, e.1 ≠ i) :
    alistFind? (l ++ l') i = alistFind? l' i := by
  induction l with
  | nil => rfl
  | cons e rest ih =>
    obtain ⟨j, b⟩ := e
    have h1 : j ≠ i := h (j, b) (by simp)
    simp [alistFind?, h1, ih (fun e he => h e (by simp [he]))]

/-- Claim C4: after add(k1, v1); add(k2, v2) with k1 and k2 Python-equal
(hence hash-equal, by the hash contract) but physically distinct, on a map
with a sound slot counter where k1 is not yet present, both new ledger
entries carry the physically identical first-seen key object k1, never k2,
and the second add records only the new value under a fresh slot id. -/
theorem C4_key_identity_stability :
    ∀ {V : Type} (S : OrderedMultiDictBase V) (k1 k2 : PyKey) (v1 v2 : V),
      (∀ e ∈ S._items, e.1 < S._index) →
      contains S k1 = false →
      k1.eqc = k2.eqc → k1.hsh = k2.hsh → k1.ident ≠ k2.ident →
      (add S k1 v1).2 = .ok () ∧
      (add (add S k1 v1).1 k2 v2).2 = .ok () ∧
      items (add (add S k1 v1).1 k2 v2).1 = items S ++ [(k1, v1), (k1, v2)] := by
  intro V S k1 k2 v1 v2 hfresh hcon _ hh _
  have hfind : alistFind? S._map k1.hsh = none := by
    rcases hf : alistFind? S._map k1.hsh with _ | b
    · rfl
    · rw [contains, getAllOrNull, hf] at hcon
      simp at hcon
  have hne : ∀ e ∈ S._items, e.1 ≠ S._index := fun e he => Nat.ne_of_lt (hfresh e he)
  have hadd1 : add S k1 v1 =
      ({ _items := S._items ++ [(S._index, (k1, v1))],
         _map := alistSet S._map k1.hsh [(S._index, v1)],
         _index := S._index + 1 }, .ok ()) := by
    simp [add, hfind, alistSet_append_of_forall_ne _ _ _ hne]
  have hfind2 : alistFind? (alistSet S._map k1.hsh [(S._index, v1)]) k2.hsh
      = some [(S._index, v1)] := by
    rw [← hh]
    exact alistFind?_set_self _ _ _
  have hfindItems : alistFind? (S._items ++ [(S._index, (k1, v1))]) S._index
      = some (k1, v1) := by
    rw [alistFind?_append_right _ _ _ hne]
    simp [alistFind?]
  have hne2 : ∀ e ∈ S._items ++ [(S._index, (k1, v1))], e.1 ≠ S._index + 1 := by
    intro e he
    rcases List.mem_append.mp he with h | h
    · exact Nat.ne_of_lt (Nat.lt_succ_of_lt (hfresh e h))
    · simp at h
      rw [h]
      exact Nat.ne_of_lt (Nat.lt_succ_self _)
  refine ⟨by rw [hadd1], ?_, ?_⟩
  · rw [hadd1]
    simp [add, hfind2, hfindItems]
  · rw [hadd1]
    simp [add, hfind2, hfindItems, alistSet_append_of_forall_ne _ _ _ hne2, items]

/-- Witness for C4: two concrete equal-but-distinct key objects on the
empty map. -/
theorem C4_key_identity_stability_witness :
    (add (add (empty : OrderedMultiDictBase Int) ⟨0, 3, 9⟩ 1).1 ⟨5, 3, 9⟩ 2).2 = .ok () ∧
    items (add (add (empty : OrderedMultiDictBase Int) ⟨0, 3, 9⟩ 1).1 ⟨5, 3, 9⟩ 2).1 =
      [((⟨0, 3, 9⟩ : PyKey), 1), ((⟨0, 3, 9⟩ : PyKey), 2)] := by
  have h := C4_key_identity_stability (empty : OrderedMultiDictBase Int)
    ⟨0, 3, 9⟩ ⟨5, 3, 9⟩ 1 2 (by decide) (by decide) rfl rfl (by decide)
  exact ⟨h.2.1, by rw [h.2.2]; rfl⟩

/-- A successful lookup yields an entry of the list. -/
theorem alistFind?_mem {κ α : Type} [DecidableEq κ]
    {l : List (κ × α)} {i : κ} {a : α} (h : alistFind? l i = some a) : (i, a) ∈ l := by
  induction l with
  | nil => simp [alistFind?] at h
  | cons e rest ih =>
    obtain ⟨j, b⟩ := e
    by_cases hj : j = i
    · subst hj
      simp [alistFind?] at h
      simp [h]
    · simp [alistFind?, hj] at h
      simp [ih h]

/-- With unique keys, an entry of the list determines its value. -/
theorem alist_val_unique {κ α : Type} {l : List (κ × α)} {i : κ} {a b : α}
    (hnd : (l.map (·.1)).Nodup) (ha : (i, a) ∈ l) (hb : (i, b) ∈ l) : a = b := by
  induction l with
  | nil => simp at ha
  | cons e rest ih =>
    obtain ⟨j, c⟩ := e
    simp only [List.map_cons, List.nodup_cons] at hnd
    rcases List.mem_cons.mp ha with h1 | h1 <;> rcases List.mem_cons.mp hb with h2 | h2
    · injection h1 with hi1 ha1
      injection h2 with hi2 ha2
      rw [ha1, ha2]
    · injection h1 with hi1 ha1
      exfalso
      apply hnd.1
      rw [← hi1]
      exact List.mem_map_of_mem (·.1) h2
    · injection h2 with hi2 ha2
      exfalso
      apply hnd.1
      rw [← hi2]
      exact List.mem_map_of_mem (·.1) h1
    · exact ih hnd.2 h1 h2

/-- With unique keys, deleting a present key filters out exactly its entry. -/
theorem alistDel?_eq_filter {κ α : Type} [DecidableEq κ]
    {l : List (κ × α)} {i : κ}
    (hnd : (l.map (·.1)).Nodup) (hmem : i ∈ l.map (·.1)) :
    alistDel? l i = some (l.filter (fun e => e.1 ≠ i)) := by
  induction l with
  | nil => simp at hmem
  | cons e rest ih =>
    obtain ⟨j, b⟩ := e
    simp only [List.map_cons, List.nodup_cons] at hnd
    by_cases hj : j = i
    · subst hj
      have hrest : rest.filter (fun e => !decide (e.1 = j)) = rest := by
        rw [List.filter_eq_self]
        intro a ha
        simp only [Bool.not_eq_true', decide_eq_false_iff_not]
        intro hc
        exact hnd.1 (hc ▸ List.mem_map_of_mem (·.1) ha)
      simp [alistDel?, List.filter_cons, hrest]
    · have hmem' : i ∈ rest.map (·.1) := by
        rcases List.mem_map.mp hmem with ⟨e, he, he1⟩
        rcases List.mem_cons.mp he with h1 | h1
        · rw [h1] at he1
          exact absurd he1 hj
        · exact he1 ▸ List.mem_map_of_mem (·.1) h1
      simp [alistDel?, hj, ih hnd.2 hmem', List.filter_cons]

/-- With unique keys, lookup after erase of the same key fails. -/
theorem alistFind?_erase_self {κ α : Type} [DecidableEq κ]
    {l : List (κ × α)} {i : κ} (hnd : (l.map (·.1)).Nodup) :
    alistFind? (alistErase l i) i = none := by
  induction l with
  | nil => rfl
  | cons e rest ih =>
    obtain ⟨j, b⟩ := e
    simp only [List.map_cons, List.nodup_cons] at hnd
    by_cases hj : j = i
    · subst hj
      rcases hf : alistFind? rest j with _ | a
      · simpa [alistErase] using hf
      · exact absurd (List.mem_map_of_mem (·.1) (alistFind?_mem hf)) hnd.1
    · simp [alistErase, alistFind?, hj, ih hnd.2]

/-- The deletion loop of _tryDeleteAll and popAll succeeds on pairwise
distinct slots that are all present, and removes exactly those slots. -/
theorem delSlots_filter {V : Type} :
    ∀ (slots : List Nat) (its : List (Nat × (PyKey × V))),
      (its.map (·.1)).Nodup → slots.Nodup → (∀ s ∈ slots, s ∈ its.map (·.1)) →
      delSlots slots its = (its.filter (fun e => e.1 ∉ slots), true) := by
  intro slots
  induction slots with
  | nil =>
    intro its _ _ _
    simp [delSlots]
  | cons s rest ih =>
    intro its hnd hsnd hmem
    simp only [List.nodup_cons] at hsnd
    have hdel := alistDel?_eq_filter hnd (hmem s (by simp))
    have hnd' : ((its.filter (fun e => e.1 ≠ s)).map (·.1)).Nodup :=
      List.Nodup.sublist ((List.filter_sublist its).map (·.1)) hnd
    have hmem' : ∀ t ∈ rest, t ∈ (its.filter (fun e => e.1 ≠ s)).map (·.1) := by
      intro t ht
      rcases List.mem_map.mp (hmem t (by simp [ht])) with ⟨e, he, he1⟩
      refine he1 ▸ List.mem_map_of_mem (·.1) (List.mem_filter.mpr ⟨he, ?_⟩)
      simp only [decide_eq_true_eq]
      intro hc
      rw [he1] at hc
      rw [hc] at ht
      exact hsnd.1 ht
    rw [delSlots, hdel]
    dsimp only
    rw [ih _ hnd' hsnd.2 hmem', List.filter_filter]
    congr 1
    apply List.filter_congr
    intro e _
    by_cases h1 : e.1 = s <;> by_cases h2 : e.1 ∈ rest <;> simp [h1, h2]

/-- In a well-formed state, the slot ids of the deque found for a key are
exactly the first components of the ledger entries whose key has that
hash. -/
theorem wf_slot_mem_iff {V : Type} {S : OrderedMultiDictBase V} {k : PyKey}
    {bucket : List (Nat × V)} (hWF : WF S)
    (hb : alistFind? S._map k.hsh = some bucket) :
    ∀ e ∈ S._items, (e.1 ∈ bucket.map (·.1) ↔ e.2.1.hsh = k.hsh) := by
  have hWF' := hWF
  obtain ⟨-, hitemsNd, hmapNd, -, -, h6, h7⟩ := hWF'
  have hbmem : (k.hsh, bucket) ∈ S._map := alistFind?_mem hb
  intro e he
  constructor
  · intro hsl
    rcases List.mem_map.mp hsl with ⟨sv, hsv, hsv1⟩
    rcases h6 _ hbmem sv hsv with ⟨e', he', he'1, he'2, he'3⟩
    have h1 : e'.1 = e.1 := he'1.trans hsv1
    have he'' : (e.1, e'.2) ∈ S._items := by
      rw [← h1, Prod.mk.eta]
      exact he'
    have he2 : (e.1, e.2) ∈ S._items := by
      rw [Prod.mk.eta]
      exact he
    have hval : e'.2 = e.2 := alist_val_unique hitemsNd he'' he2
    rw [← hval]
    exact he'3
  · intro hh
    rcases h7 e he with ⟨b', hb', hb'1, hb'2⟩
    have hbk : b'.1 = k.hsh := hb'1 ▸ hh
    have hb'' : (k.hsh, b'.2) ∈ S._map := by
      rw [← hbk, Prod.mk.eta]
      exact hb'
    have hval : b'.2 = bucket := alist_val_unique hmapNd hb'' hbmem
    rw [hval] at hb'2
    exact List.mem_map_of_mem (·.1) hb'2

/-- In a well-formed state the deletion loop over the deque of a present
key succeeds and removes exactly the ledger entries with that key hash. -/
theorem wf_delSlots {V : Type} {S : OrderedMultiDictBase V} {k : PyKey}
    {bucket : List (Nat × V)} (hWF : WF S)
    (hb : alistFind? S._map k.hsh = some bucket) :
    delSlots (bucket.map (·.1)) S._items
      = (S._items.filter (fun e => e.2.1.hsh ≠ k.hsh), true) := by
  have hWF' := hWF
  obtain ⟨-, hitemsNd, -, -, h5, h6, -⟩ := hWF'
  have hbmem : (k.hsh, bucket) ∈ S._map := alistFind?_mem hb
  have hslNd : (bucket.map (·.1)).Nodup := h5 _ hbmem
  have hsub : ∀ s ∈ bucket.map (·.1), s ∈ S._items.map (·.1) := by
    intro s hs
    rcases List.mem_map.mp hs with ⟨sv, hsv, hsv1⟩
    rcases h6 _ hbmem sv hsv with ⟨e, he, he1, -, -⟩
    rw [← hsv1, ← he1]
    exact List.mem_map_of_mem (·.1) he
  rw [delSlots_filter _ _ hitemsNd hslNd hsub]
  congr 1
  apply List.filter_congr
  intro e he
  rw [decide_eq_decide]
  exact not_congr (wf_slot_mem_iff hWF hb e he)

/-- In a well-formed state popAll on a present key removes exactly the
entries of that key from both stores and returns the deque values. -/
theorem popAll_present {V : Type} {S : OrderedMultiDictBase V} {k : PyKey}
    {bucket : List (Nat × V)} (hWF : WF S)
    (hb : alistFind? S._map k.hsh = some bucket) (d : Option (List V)) :
    popAll S k d =
      ({ _items := S._items.filter (fun e => e.2.1.hsh ≠ k.hsh),
         _map := alistErase S._map k.hsh,
         _index := S._index }, .ok (bucket.map (·.2))) := by
  simp only [popAll, getAllOrNull, hb, wf_delSlots hWF hb]

/-- In a well-formed state _tryDeleteAll on a present key removes exactly
the entries of that key from both stores and answers true. -/
theorem tryDeleteAll_present {V : Type} {S : OrderedMultiDictBase V} {k : PyKey}
    {bucket : List (Nat × V)} (hWF : WF S)
    (hb : alistFind? S._map k.hsh = some bucket) :
    tryDeleteAll S k =
      ({ _items := S._items.filter (fun e => e.2.1.hsh ≠ k.hsh),
         _map := alistErase S._map k.hsh,
         _index := S._index }, .ok true) := by
  simp only [tryDeleteAll, getAllOrNull, hb, wf_delSlots hWF hb]

/-- Claim C3 (amended): popAll on a present key removes every entry of the
key and returns the full value list oldest first; on an absent key it
raises KeyError when the default is None (supplied or omitted) and returns
the default when a non-None default is supplied, leaving the map
unchanged. -/
theorem C3_popAll_behavior :
    ∀ {V : Type} (S : OrderedMultiDictBase V) (k : PyKey) (d : Option (List V)) (dl : List V),
      WF S →
      (contains S k = true →
        popAll S k d =
          ({ _items := S._items.filter (fun e => e.2.1.hsh ≠ k.hsh),
             _map := alistErase S._map k.hsh,
             _index := S._index }, .ok (getall S k none)) ∧
        contains
          (⟨S._items.filter (fun e => e.2.1.hsh ≠ k.hsh),
            alistErase S._map k.hsh, S._index⟩ : OrderedMultiDictBase V) k = false) ∧
      (contains S k = false → popAll S k none = (S, .error .keyError)) ∧
      (contains S k = false → popAll S k (some dl) = (S, .ok dl)) := by
  intro V S k d dl hWF
  refine ⟨?_, ?_, ?_⟩
  · intro hc
    rcases hb : alistFind? S._map k.hsh with _ | bucket
    · rw [contains, getAllOrNull, hb] at hc
      simp at hc
    · constructor
      · rw [popAll_present hWF hb]
        simp [getall, getAllOrNull, hb]
      · simp [contains, getAllOrNull, alistFind?_erase_self hWF.2.2.1]
  · intro hc
    rcases hb : alistFind? S._map k.hsh with _ | bucket
    · simp [popAll, getAllOrNull, hb]
    · rw [contains, getAllOrNull, hb] at hc
      simp at hc
  · intro hc
    rcases hb : alistFind? S._map k.hsh with _ | bucket
    · simp [popAll, getAllOrNull, hb]
    · rw [contains, getAllOrNull, hb] at hc
      simp at hc

/-- The concrete well-formed three-entry map used to witness C3. -/
def C3S : OrderedMultiDictBase Int :=
  ⟨[(0, (K 1, 10)), (1, (K 1, 11)), (2, (K 2, 20))],
    [(1, [(0, 10), (1, 11)]), (2, [(2, 20)])], 3⟩

/-- Witness for C3 on a map holding two values for key 1 and one for key 2:
popAll of the present key 1 ignores the supplied default and pops both
entries, popAll of the absent key 3 raises without a default and returns
the supplied empty list with one. -/
theorem C3_popAll_behavior_witness :
    WF C3S ∧
    popAll C3S (K 1) (some [99]) =
      (⟨[(2, (K 2, 20))], [(2, [(2, 20)])], 3⟩, .ok [10, 11]) ∧
    popAll C3S (K 3) none = (C3S, .error .keyError) ∧
    popAll C3S (K 3) (some []) = (C3S, .ok []) := by
  have h1 := C3_popAll_behavior C3S (K 1) (some [99]) [] (by decide)
  have h3 := C3_popAll_behavior C3S (K 3) none [] (by decide)
  exact ⟨by decide, ((h1.1 (by decide)).1).trans (by decide),
    h3.2.1 (by decide), h3.2.2 (by decide)⟩

/-- Adding a key whose hash is absent from the index appends the pair to
the ledger under the fresh slot id and creates a one-entry deque. -/
theorem add_absent {V : Type} {S : OrderedMultiDictBase V} {k : PyKey} (v : V)
    (h : alistFind? S._map k.hsh = none) :
    add S k v =
      ({ _items := alistSet S._items S._index (k, v),
         _map := alistSet S._map k.hsh [(S._index, v)],
         _index := S._index + 1 }, .ok ()) := by
  simp [add, h]

/-- Claim C10: the bracket operators are asymmetric about multiplicity.
Subscript assignment is literally setAll with a one-element list and, on a
well-formed map, leaves the key holding exactly the one assigned value;
del is literally pop, that is popLast with no default, and on a key with
at least two values it removes only the newest entry, leaving the key
present with its older values. -/
theorem C10_bracket_operator_asymmetry :
    ∀ {V : Type} (S : OrderedMultiDictBase V) (k : PyKey) (v : V) (vs : List V),
      WF S →
      (setitem S k v = setAll S k [v] ∧ delitem S k = popLast S k none) ∧
      ((setitem S k v).2 = .ok () ∧
        contains (setitem S k v).1 k = true ∧
        getall (setitem S k v).1 k none = [v]) ∧
      (getall S k none = vs → 2 ≤ vs.length →
        (∃ w, vs.getLast? = some w ∧ (delitem S k).2 = .ok w) ∧
        contains (delitem S k).1 k = true ∧
        getall (delitem S k).1 k none = vs.dropLast) := by
  intro V S k v vs hWF
  have hitemsNd := hWF.2.1
  have hmapNd := hWF.2.2.1
  refine ⟨⟨rfl, rfl⟩, ?_, ?_⟩
  · -- subscript assignment replaces all values of the key by the one value
    rcases hb : alistFind? S._map k.hsh with _ | bucket
    · -- key absent: tryDeleteAll is a no-op, then a single add
      have htd : tryDeleteAll S k = (S, .ok false) := by
        simp [tryDeleteAll, getAllOrNull, hb]
      have hset : setitem S k v =
          ({ _items := alistSet S._items S._index (k, v),
             _map := alistSet S._map k.hsh [(S._index, v)],
             _index := S._index + 1 }, .ok ()) := by
        rw [setitem, setAll, htd]
        simp [addAll, add_absent v hb]
      rw [hset]
      simp [contains, getAllOrNull, getall, alistFind?_set_self]
    · -- key present: tryDeleteAll erases it, then a single add re-creates it
      have herased : alistFind? (alistErase S._map k.hsh) k.hsh = none :=
        alistFind?_erase_self hmapNd
      have hone : addAll
          (⟨S._items.filter (fun e => e.2.1.hsh ≠ k.hsh),
            alistErase S._map k.hsh, S._index⟩ : OrderedMultiDictBase V) k [v] =
          (⟨alistSet (S._items.filter (fun e => e.2.1.hsh ≠ k.hsh)) S._index (k, v),
            alistSet (alistErase S._map k.hsh) k.hsh [(S._index, v)],
            S._index + 1⟩, .ok ()) := by
        simp [addAll, add, herased]
      have hset : setitem S k v =
          (⟨alistSet (S._items.filter (fun e => e.2.1.hsh ≠ k.hsh)) S._index (k, v),
            alistSet (alistErase S._map k.hsh) k.hsh [(S._index, v)],
            S._index + 1⟩, .ok ()) := by
        rw [setitem, setAll, tryDeleteAll_present hWF hb]
        dsimp only
        exact hone
      rw [hset]
      simp [contains, getAllOrNull, getall, alistFind?_set_self]
  · -- del removes only the newest entry of the key
    intro hvs hlen
    rcases hb : alistFind? S._map k.hsh with _ | bucket
    · rw [getall, getAllOrNull, hb] at hvs
      simp at hvs
      rw [hvs] at hlen
      simp at hlen
    · have hvsb : vs = bucket.map (·.2) := by
        rw [getall, getAllOrNull, hb] at hvs
        exact hvs.symm
      have hbne : bucket ≠ [] := by
        intro hc
        rw [hc] at hvsb
        rw [hvsb] at hlen
        simp at hlen
      rcases hgl : bucket.getLast? with _ | sw
      · rw [List.getLast?_eq_none_iff] at hgl
        exact absurd hgl hbne
      obtain ⟨slot, w⟩ := sw
      have hslot : slot ∈ S._items.map (·.1) := by
        have hmem : ((slot, w) : Nat × V) ∈ bucket := List.mem_of_getLast?_eq_some hgl
        rcases hWF.2.2.2.2.2.1 _ (alistFind?_mem hb) _ hmem with ⟨e, he, he1, -, -⟩
        have he1' : e.1 = slot := he1
        rw [← he1']
        exact List.mem_map_of_mem (·.1) he
      have hdel := alistDel?_eq_filter hitemsNd hslot
      have hrne : bucket.dropLast ≠ [] := by
        intro hc
        have hlc := congrArg List.length hc
        rw [List.length_dropLast] at hlc
        simp at hlc
        rw [hvsb] at hlen
        simp at hlen
        omega
      have hre : bucket.dropLast.isEmpty = false := List.isEmpty_eq_false.mpr hrne
      have hpop : popLast S k none =
          ({ _items := S._items.filter (fun e => e.1 ≠ slot),
             _map := alistSet S._map k.hsh bucket.dropLast,
             _index := S._index }, .ok w) := by
        simp [popLast, getAllOrNull, hb, hgl, hdel, hre]
      refine ⟨⟨w, ?_, ?_⟩, ?_, ?_⟩
      · rw [hvsb, List.getLast?_map, hgl]
        rfl
      · rw [delitem, pop, hpop]
      · rw [delitem, pop, hpop]
        simp [contains, getAllOrNull, alistFind?_set_self]
      · rw [delitem, pop, hpop]
        simp [getall, getAllOrNull, alistFind?_set_self]
        rw [hvsb]

/-- Witness for C10 on the three-entry map: subscript assignment collapses
key 1 from two values to the single assigned one, while del removes only
the newest of its two values and leaves it present with the older one. -/
theorem C10_bracket_operator_asymmetry_witness :
    (setitem C3S (K 1) 77).2 = .ok () ∧
    getall (setitem C3S (K 1) 77).1 (K 1) none = [77] ∧
    (delitem C3S (K 1)).2 = .ok 11 ∧
    contains (delitem C3S (K 1)).1 (K 1) = true ∧
    getall (delitem C3S (K 1)).1 (K 1) none = [10] := by
  have h := C10_bracket_operator_asymmetry C3S (K 1) 77 [10, 11] (by decide)
  have hd := h.2.2 (by decide) (by decide)
  refine ⟨h.2.1.1, h.2.1.2.2, ?_, hd.2.1, hd.2.2.trans (by decide)⟩
  rcases hd.1 with ⟨w, hw1, hw2⟩
  simp at hw1
  rw [← hw1] at hw2
  exact hw2

/-- One step of the specification-side first-occurrence scan: keep the key
unless one of the same equality class was already kept. -/
def dedupStep (acc : List PyKey) (k : PyKey) : List PyKey :=
  if acc.any (fun s => s.eqc == k.eqc) then acc else acc ++ [k]

/-- Specification-side description of a unique-keys iteration: scan the key
stream left to right, keeping each key exactly when no Python-equal key was
seen before, so the output lists each distinct key once, in order of first
occurrence. -/
def dedupFirstSpec (l : List PyKey) : List PyKey := l.foldl dedupStep []

/-- Sanity conditions on a collection of Python key objects: Python-equal
keys have equal hashes (the hash contract) and equal identities mean the
same object. -/
def KeyOK (l : List PyKey) : Prop :=
  ∀ a ∈ l, ∀ b ∈ l, (a.eqc = b.eqc → a.hsh = b.hsh) ∧ (a.ident = b.ident → a = b)

instance (l : List PyKey) : Decidable (KeyOK l) := by
  unfold KeyOK
  infer_instance

/-- The seen-set generator of the unique-keys view coincides with the
specification-side scan, given that the per-element membership test of the
CPython set agrees with plain equality-class comparison on the keys of the
stream, and that the seen set is in sync with the accumulator. -/
theorem uniqAux_eq_dedup :
    ∀ (l seen acc : List PyKey),
      (∀ a ∈ l, ∀ b ∈ l,
        (a.hsh == b.hsh && (a.ident == b.ident || a.eqc == b.eqc)) = (a.eqc == b.eqc)) →
      (∀ x ∈ l, pySetMem seen x = acc.any (fun s => s.eqc == x.eqc)) →
      List.foldl dedupStep acc l = acc ++ uniqAux seen l := by
  intro l
  induction l with
  | nil =>
    intro seen acc _ _
    simp [uniqAux]
  | cons k ks ih =>
    intro seen acc hRel hmem
    have hk := hmem k (by simp)
    rw [List.foldl_cons]
    cases hpm : pySetMem seen k with
    | true =>
      have hacc : acc.any (fun s => s.eqc == k.eqc) = true := by rw [← hk, hpm]
      have hstep : dedupStep acc k = acc := by simp [dedupStep, hacc]
      rw [hstep, uniqAux, hpm]
      exact ih seen acc (fun a ha b hb => hRel a (by simp [ha]) b (by simp [hb]))
        (fun x hx => hmem x (by simp [hx]))
    | false =>
      have hacc : acc.any (fun s => s.eqc == k.eqc) = false := by rw [← hk, hpm]
      have hstep : dedupStep acc k = acc ++ [k] := by simp [dedupStep, hacc]
      have hmem' : ∀ x ∈ ks,
          pySetMem (k :: seen) x = (acc ++ [k]).any (fun s => s.eqc == x.eqc) := by
        intro x hx
        have hxl : x ∈ k :: ks := by simp [hx]
        have hRk := hRel k (by simp) x hxl
        have hcons : pySetMem (k :: seen) x
            = ((k.hsh == x.hsh && (k.ident == x.ident || k.eqc == x.eqc))
                || pySetMem seen x) := by
          rw [pySetMem, pySetMem, List.any_cons]
        rw [hcons, hRk, hmem x hxl, List.any_append]
        simp [Bool.or_comm]
      rw [hstep, uniqAux, hpm,
        ih (k :: seen) (acc ++ [k])
          (fun a ha b hb => hRel a (by simp [ha]) b (by simp [hb])) hmem']
      simp

/-- The specification-side scan yields pairwise distinct equality
classes. -/
theorem foldl_dedupStep_pairwise :
    ∀ (l acc : List PyKey), acc.Pairwise (fun a b => a.eqc ≠ b.eqc) →
      (List.foldl dedupStep acc l).Pairwise (fun a b => a.eqc ≠ b.eqc) := by
  intro l
  induction l with
  | nil =>
    intro acc h
    simpa using h
  | cons k ks ih =>
    intro acc h
    rw [List.foldl_cons]
    cases hacc : acc.any (fun s => s.eqc == k.eqc) with
    | true =>
      have hstep : dedupStep acc k = acc := by simp [dedupStep, hacc]
      rw [hstep]
      exact ih acc h
    | false =>
      have hstep : dedupStep acc k = acc ++ [k] := by simp [dedupStep, hacc]
      rw [hstep]
      apply ih
      rw [List.pairwise_append]
      refine ⟨h, by simp, ?_⟩
      intro a ha b hb
      simp only [List.mem_singleton] at hb
      rw [hb]
      have := List.any_eq_false.mp hacc a ha
      simpa using this

/-- Claim C6: over well-behaved keys, the forward unique-keys iteration is
the first-occurrence scan of the key stream in global slot order, the
reversed iteration is the first-occurrence scan of the reversed stream
(backward deduplication), and both list each distinct key exactly once
(pairwise distinct equality classes). -/
theorem C6_uniqueKeys_first_occurrence :
    ∀ {V : Type} (S : OrderedMultiDictBase V),
      KeyOK (keys S) →
      uniqueKeys S = dedupFirstSpec (keys S) ∧
      uniqueKeysReversed S = dedupFirstSpec ((keys S).reverse) ∧
      (uniqueKeys S).Pairwise (fun a b => a.eqc ≠ b.eqc) ∧
      (uniqueKeysReversed S).Pairwise (fun a b => a.eqc ≠ b.eqc) := by
  intro V S hOK
  have hRel : ∀ a ∈ keys S, ∀ b ∈ keys S,
      (a.hsh == b.hsh && (a.ident == b.ident || a.eqc == b.eqc)) = (a.eqc == b.eqc) := by
    intro a ha b hb
    rcases hOK a ha b hb with ⟨h1, h2⟩
    by_cases he : a.eqc = b.eqc
    · simp [he, h1 he]
    · by_cases hi : a.ident = b.ident
      · exact absurd (congrArg PyKey.eqc (h2 hi)) he
      · have hb1 : (a.eqc == b.eqc) = false := by simpa using he
        have hb2 : (a.ident == b.ident) = false := by simpa using hi
        rw [hb1, hb2]
        simp
  have hRelRev : ∀ a ∈ (keys S).reverse, ∀ b ∈ (keys S).reverse,
      (a.hsh == b.hsh && (a.ident == b.ident || a.eqc == b.eqc)) = (a.eqc == b.eqc) :=
    fun a ha b hb => hRel a (List.mem_reverse.mp ha) b (List.mem_reverse.mp hb)
  have h1 : uniqueKeys S = dedupFirstSpec (keys S) := by
    have h := uniqAux_eq_dedup (keys S) [] [] hRel (fun x _ => rfl)
    rw [uniqueKeys, dedupFirstSpec, h, List.nil_append]
  have h2 : uniqueKeysReversed S = dedupFirstSpec ((keys S).reverse) := by
    have h := uniqAux_eq_dedup ((keys S).reverse) [] [] hRelRev (fun x _ => rfl)
    rw [uniqueKeysReversed, dedupFirstSpec, h, List.nil_append]
  refine ⟨h1, h2, ?_, ?_⟩
  · rw [h1]
    exact foldl_dedupStep_pairwise _ [] (by simp)
  · rw [h2]
    exact foldl_dedupStep_pairwise _ [] (by simp)

/-- Witness for C6 on the map built by add(1, a); add(2, b); add(1, c):
forward and reversed unique-keys iterations both yield the keys 1, 2. -/
theorem C6_uniqueKeys_first_occurrence_witness :
    uniqueKeys
      (add (add (add (empty : OrderedMultiDictBase Int) (K 1) 0).1 (K 2) 1).1 (K 1) 2).1 =
      [K 1, K 2] ∧
    uniqueKeysReversed
      (add (add (add (empty : OrderedMultiDictBase Int) (K 1) 0).1 (K 2) 1).1 (K 1) 2).1 =
      [K 1, K 2] := by
  have h := C6_uniqueKeys_first_occurrence
    (add (add (add (empty : OrderedMultiDictBase Int) (K 1) 0).1 (K 2) 1).1 (K 1) 2).1
    (by decide)
  exact ⟨h.1.trans (by decide), h.2.1.trans (by decide)⟩

/-- A failed lookup means no entry carries the key. -/
theorem alistFind?_eq_none {κ α : Type} [DecidableEq κ]
    {l : List (κ × α)} {i : κ} (h : alistFind? l i = none) :
    ∀ e ∈ l, e.1 ≠ i := by
  induction l with
  | nil => simp
  | cons e rest ih =>
    obtain ⟨j, b⟩ := e
    by_cases hj : j = i
    · rw [hj] at h
      simp [alistFind?] at h
    · rw [alistFind?, if_neg hj] at h
      intro x hx
      rcases List.mem_cons.mp hx with h1 | h1
      · rw [h1]
        exact hj
      · exact ih h x h1

/-- A successful lookup is preserved by appending on the right. -/
theorem alistFind?_append_left {κ α : Type} [DecidableEq κ]
    {l : List (κ × α)} {i : κ} {a : α} (l' : List (κ × α))
    (h : alistFind? l i = some a) :
    alistFind? (l ++ l') i = some a := by
  induction l with
  | nil => simp [alistFind?] at h
  | cons e rest ih =>
    obtain ⟨j, b⟩ := e
    by_cases hj : j = i
    · rw [hj] at h ⊢
      simp [alistFind?] at h
      simp [alistFind?, h]
    · rw [alistFind?, if_neg hj] at h
      rw [List.cons_append, alistFind?, if_neg hj]
      exact ih h

/-- Writing to a present key keeps the key sequence of the list. -/
theorem alistSet_keys_of_mem {κ α : Type} [DecidableEq κ]
    {l : List (κ × α)} {i : κ} (a : α) (h : i ∈ l.map (·.1)) :
    (alistSet l i a).map (·.1) = l.map (·.1) := by
  induction l with
  | nil => simp at h
  | cons e rest ih =>
    obtain ⟨j, b⟩ := e
    by_cases hj : j = i
    · rw [hj]
      simp [alistSet]
    · have hmem : i ∈ rest.map (·.1) := by
        rcases List.mem_map.mp h with ⟨x, hx, hx1⟩
        rcases List.mem_cons.mp hx with h1 | h1
        · rw [h1] at hx1
          exact absurd hx1 hj
        · exact hx1 ▸ List.mem_map_of_mem (·.1) h1
      simp [alistSet, hj, ih hmem]

/-- With unique keys, an entry of the written list is either the written
pair or an untouched entry with another key. -/
theorem mem_alistSet_of_nodup {κ α : Type} [DecidableEq κ]
    {l : List (κ × α)} {i : κ} {a : α} {x : κ × α}
    (hnd : (l.map (·.1)).Nodup) (hx : x ∈ alistSet l i a) :
    x = (i, a) ∨ (x ∈ l ∧ x.1 ≠ i) := by
  induction l with
  | nil =>
    simp [alistSet] at hx
    exact Or.inl hx
  | cons e rest ih =>
    obtain ⟨j, b⟩ := e
    simp only [List.map_cons, List.nodup_cons] at hnd
    by_cases hj : j = i
    · subst hj
      rw [alistSet, if_pos rfl] at hx
      rcases List.mem_cons.mp hx with h1 | h1
      · exact Or.inl h1
      · refine Or.inr ⟨List.mem_cons_of_mem _ h1, ?_⟩
        intro hc
        exact hnd.1 (hc ▸ List.mem_map_of_mem (·.1) h1)
    · rw [alistSet, if_neg hj] at hx
      rcases List.mem_cons.mp hx with h1 | h1
      · refine Or.inr ⟨by rw [h1]; simp, ?_⟩
        rw [h1]
        exact hj
      · rcases ih hnd.2 h1 with h2 | h2
        · exact Or.inl h2
        · exact Or.inr ⟨List.mem_cons_of_mem _ h2.1, h2.2⟩

/-- Invariant maintained while replaying an item stream through add on a
fresh map: slot ids are below the counter, index hashes are unique, every
deque is non-empty with its front slot resolving in the ledger to the
canonical key object of its hash (the key stored by every ledger entry of
that hash), and every ledger key hash owns an index entry. -/
def ReplayInv {V : Type} (S : OrderedMultiDictBase V) : Prop :=
  (∀ e ∈ S._items, e.1 < S._index) ∧
  (S._map.map (·.1)).Nodup ∧
  (∀ b ∈ S._map, ∃ slot w bs, b.2 = (slot, w) :: bs ∧
    ∃ k0 v0, alistFind? S._items slot = some (k0, v0) ∧ k0.hsh = b.1 ∧
      (∀ e ∈ S._items, e.2.1.hsh = b.1 → e.2.1 = k0)) ∧
  (∀ e ∈ S._items, e.2.1.hsh ∈ S._map.map (·.1))

/-- One add during a canonical replay: appends exactly the given pair to
the ledger and preserves the replay invariant. -/
theorem replay_add_step :
    ∀ {V : Type} (S : OrderedMultiDictBase V) (k : PyKey) (v : V),
      ReplayInv S →
      (∀ e ∈ S._items, e.2.1.hsh = k.hsh → e.2.1 = k) →
      ∃ m, add S k v =
          (⟨S._items ++ [(S._index, (k, v))], m, S._index + 1⟩, .ok ()) ∧
        ReplayInv (⟨S._items ++ [(S._index, (k, v))], m, S._index + 1⟩ :
          OrderedMultiDictBase V) := by
  intro V S k v hInv hcanon
  obtain ⟨hfresh, hmapNd, hbuck, hhash⟩ := hInv
  have hne : ∀ e ∈ S._items, e.1 ≠ S._index := fun e he => Nat.ne_of_lt (hfresh e he)
  have hitemsSet : alistSet S._items S._index (k, v)
      = S._items ++ [(S._index, (k, v))] :=
    alistSet_append_of_forall_ne _ _ _ hne
  have hfindNew : alistFind? (S._items ++ [(S._index, (k, v))]) S._index
      = some (k, v) := by
    rw [alistFind?_append_right _ _ _ hne]
    simp [alistFind?]
  have hfreshStep : ∀ e ∈ S._items ++ [(S._index, (k, v))], e.1 < S._index + 1 := by
    intro e he
    rcases List.mem_append.mp he with h | h
    · exact Nat.lt_succ_of_lt (hfresh e h)
    · simp at h
      rw [h]
      exact Nat.lt_succ_self _
  rcases hb : alistFind? S._map k.hsh with _ | bucket
  · -- the hash is not in the index: a fresh one-entry deque is created
    have hknotin : ∀ b ∈ S._map, b.1 ≠ k.hsh := alistFind?_eq_none hb
    have hmapSet : alistSet S._map k.hsh [(S._index, v)]
        = S._map ++ [(k.hsh, [(S._index, v)])] :=
      alistSet_append_of_forall_ne _ _ _ hknotin
    refine ⟨S._map ++ [(k.hsh, [(S._index, v)])], ?_, ?_⟩
    · rw [add_absent v hb, hitemsSet, hmapSet]
    · refine ⟨hfreshStep, ?_, ?_, ?_⟩
      · rw [List.map_append, List.nodup_append]
        refine ⟨hmapNd, by simp, ?_⟩
        intro x hx
        rcases List.mem_map.mp hx with ⟨b, hbm, hb1⟩
        simp only [List.map_cons, List.map_nil, List.mem_singleton]
        rw [← hb1]
        exact hknotin b hbm
      · intro b hbmem
        rcases List.mem_append.mp hbmem with hold | hnew
        · rcases hbuck b hold with ⟨slot, w, bs, hb2, k0, v0, hfind0, hk0h, hcan0⟩
          refine ⟨slot, w, bs, hb2, k0, v0, alistFind?_append_left _ hfind0, hk0h, ?_⟩
          intro e he
          rcases List.mem_append.mp he with h | h
          · exact hcan0 e h
          · simp at h
            rw [h]
            intro hhsh
            exact absurd hhsh.symm (hknotin b hold)
        · simp only [List.mem_singleton] at hnew
          rw [hnew]
          refine ⟨S._index, v, [], rfl, k, v, hfindNew, rfl, ?_⟩
          intro e he
          rcases List.mem_append.mp he with h | h
          · intro hhsh
            exfalso
            have hmemkeys := hhash e h
            rw [hhsh] at hmemkeys
            rcases List.mem_map.mp hmemkeys with ⟨b, hbm, hb1⟩
            exact hknotin b hbm hb1
          · simp at h
            rw [h]
            intro _
            rfl
      · intro e he
        rw [List.map_append]
        rcases List.mem_append.mp he with h | h
        · exact List.mem_append_left _ (hhash e h)
        · simp at h
          rw [h]
          simp
  · -- the hash owns a deque already: its canonical key is re-used
    have hbmem : (k.hsh, bucket) ∈ S._map := alistFind?_mem hb
    have hkin : k.hsh ∈ S._map.map (·.1) := List.mem_map_of_mem (·.1) hbmem
    rcases hbuck _ hbmem with ⟨slot, w, bs, hb2, k0, v0, hfind0, hk0h, hcan0⟩
    have hk0 : k0 = k := by
      have hmem0 : (slot, (k0, v0)) ∈ S._items := alistFind?_mem hfind0
      exact hcanon (slot, (k0, v0)) hmem0 hk0h
    subst hk0
    have hb2' : bucket = (slot, w) :: bs := hb2
    rw [hb2'] at hb
    have hadd : add S k0 v =
        (⟨S._items ++ [(S._index, (k0, v))],
          alistSet S._map k0.hsh (((slot, w) :: bs) ++ [(S._index, v)]),
          S._index + 1⟩, .ok ()) := by
      simp [add, hb, hfind0, hitemsSet]
    have hkeysEq : (alistSet S._map k0.hsh (((slot, w) :: bs)
        ++ [(S._index, v)])).map (·.1) = S._map.map (·.1) :=
      alistSet_keys_of_mem _ hkin
    refine ⟨alistSet S._map k0.hsh (((slot, w) :: bs) ++ [(S._index, v)]), hadd,
      hfreshStep, ?_, ?_, ?_⟩
    · rw [hkeysEq]
      exact hmapNd
    · intro b hbmem'
      rcases mem_alistSet_of_nodup hmapNd hbmem' with hnew | ⟨hold, holdne⟩
      · rw [hnew]
        refine ⟨slot, w, bs ++ [(S._index, v)], by simp, k0, v0,
          alistFind?_append_left _ hfind0, hk0h, ?_⟩
        intro e he
        rcases List.mem_append.mp he with h | h
        · exact hcan0 e h
        · simp at h
          rw [h]
          intro _
          rfl
      · rcases hbuck b hold with ⟨slot', w', bs', hb2', k0', v0', hfind0', hk0h', hcan0'⟩
        refine ⟨slot', w', bs', hb2', k0', v0',
          alistFind?_append_left _ hfind0', hk0h', ?_⟩
        intro e he
        rcases List.mem_append.mp he with h | h
        · exact hcan0' e h
        · simp at h
          rw [h]
          intro hhsh
          exfalso
          apply holdne
          rw [← hhsh]
    · intro e he
      rw [hkeysEq]
      rcases List.mem_append.mp he with h | h
      · exact hhash e h
      · simp at h
        rw [h]
        exact hkin

/-- Replaying a pairwise-canonical item stream through extend on an
invariant state succeeds and appends exactly the stream to the ledger. -/
theorem replay_extend :
    ∀ {V : Type} (ps : List (PyKey × V)) (S : OrderedMultiDictBase V),
      ReplayInv S →
      (∀ p ∈ ps, ∀ e ∈ S._items, e.2.1.hsh = p.1.hsh → e.2.1 = p.1) →
      (∀ p ∈ ps, ∀ q ∈ ps, p.1.hsh = q.1.hsh → p.1 = q.1) →
      (extend S ps).2 = .ok () ∧ items (extend S ps).1 = items S ++ ps := by
  intro V ps
  induction ps with
  | nil =>
    intro S _ _ _
    exact ⟨rfl, by simp [extend, items]⟩
  | cons p ps ih =>
    obtain ⟨k, v⟩ := p
    intro S hInv hcanon hpair
    rcases replay_add_step S k v hInv
      (fun e he hh => hcanon (k, v) (by simp) e he hh) with ⟨m, hadd, hInv'⟩
    have hstep : extend S ((k, v) :: ps)
        = extend (⟨S._items ++ [(S._index, (k, v))], m, S._index + 1⟩ :
            OrderedMultiDictBase V) ps := by
      rw [extend, hadd]
    have hcanon' : ∀ p ∈ ps,
        ∀ e ∈ (⟨S._items ++ [(S._index, (k, v))], m, S._index + 1⟩ :
          OrderedMultiDictBase V)._items, e.2.1.hsh = p.1.hsh → e.2.1 = p.1 := by
      intro p hp e he hh
      rcases List.mem_append.mp he with h | h
      · exact hcanon p (by simp [hp]) e h hh
      · simp only [List.mem_singleton] at h
        rw [h] at hh ⊢
        exact (hpair p (by simp [hp]) (k, v) (by simp) hh.symm).symm
    have hpair' : ∀ p ∈ ps, ∀ q ∈ ps, p.1.hsh = q.1.hsh → p.1 = q.1 :=
      fun p hp q hq => hpair p (by simp [hp]) q (by simp [hq])
    rcases ih _ hInv' hcanon' hpair' with ⟨hok, hitems⟩
    rw [hstep]
    refine ⟨hok, ?_⟩
    rw [hitems]
    simp [items]

/-- The pairwise item comparison of __eq__ is reflexive. -/
theorem itemsEqB_refl :
    ∀ {V : Type} [DecidableEq V] (l : List (PyKey × V)), itemsEqB l l = true := by
  intro V _ l
  induction l with
  | nil => rfl
  | cons a as ih => simp [itemsEqB, itemEqB, ih]

/-- Claim C7 (amended): for every map whose ledger holds at most one
physical key object per hash value, loading the item sequence into a fresh
map succeeds and reproduces a map equal to the original under the
positional item-sequence equality of __eq__. -/
theorem C7_roundtrip_canonical_keys :
    ∀ {V : Type} [DecidableEq V] (S : OrderedMultiDictBase V),
      (∀ e ∈ S._items, ∀ f ∈ S._items, e.2.1.hsh = f.2.1.hsh → e.2.1 = f.2.1) →
      (load (empty : OrderedMultiDictBase V) (items S)).2 = .ok () ∧
      omdEq (load (empty : OrderedMultiDictBase V) (items S)).1 S = true := by
  intro V _ S hcan
  have hInv0 : ReplayInv (empty : OrderedMultiDictBase V) := by
    refine ⟨?_, ?_, ?_, ?_⟩ <;> simp [empty]
  have hpair : ∀ p ∈ items S, ∀ q ∈ items S, p.1.hsh = q.1.hsh → p.1 = q.1 := by
    intro p hp q hq
    rcases List.mem_map.mp hp with ⟨e, he, he1⟩
    rcases List.mem_map.mp hq with ⟨f, hf, hf1⟩
    rw [← he1, ← hf1]
    exact hcan e he f hf
  have hload : load (empty : OrderedMultiDictBase V) (items S)
      = extend (empty : OrderedMultiDictBase V) (items S) := rfl
  rcases replay_extend (items S) empty hInv0
    (by intro p hp e he; simp [empty] at he) hpair with ⟨hok, hitems⟩
  rw [hload]
  refine ⟨hok, ?_⟩
  have hunfold : omdEq (extend (empty : OrderedMultiDictBase V) (items S)).1 S
      = itemsEqB (items (extend (empty : OrderedMultiDictBase V) (items S)).1)
          (items S) := rfl
  rw [hunfold, hitems]
  exact itemsEqB_refl _

/-- Witness for the amended C7 on the concrete three-entry map: reloading
its item sequence into a fresh map reproduces an equal map. -/
theorem C7_roundtrip_canonical_keys_witness :
    omdEq (load (empty : OrderedMultiDictBase Int) (items C3S)).1 C3S = true :=
  (C7_roundtrip_canonical_keys C3S (by decide)).2
